import Mathlib

/-!
Shallow embedding of the NPU simulator (`src/model/npu.py` and
`src/model/npu_wrapper.py`).

Modelling conventions:
* Memory words and accumulators are unbounded integers (`ℤ`), as in Python.
* The per-layer `scale` is modelled as an exact rational (`ℚ`); Python's
  binary floats are a subset of `ℚ`, and every concrete value appearing in
  the claims (`1.0`, `2.0`, `0.5`, ...) is exactly representable.
* Python's `round` is round-half-to-even; `round_half_even` below models it.
* Fallible operations return `Except Err _`; a raised Python exception is
  `Except.error`.  Partial writes preceding an exception are discarded by
  `Except.error`, which is observationally equivalent for every run whose
  result the driver returns (a faulted run's memory is never read back).
* The controller's debug hex-file dumps are file I/O with no effect on the
  machine state and are not modelled.
-/

namespace NPUModel

/-- Failure taxonomy.  `dimensionMismatch` is the `ValueError` raised by
`SystolicArray.load_weights` / `run_matmul`; `memoryOverflow` is the
`ValueError("Memory Overflow")` of `Memory.load_hex_string`; `indexError` is
Python's `IndexError` from an out-of-range list assignment in
`Memory.write_block`.  `outOfRange` and `unknownOpcode` are the failure kinds
named by the spec; the code never produces them. -/
inductive Err where
  | dimensionMismatch
  | memoryOverflow
  | indexError
  | outOfRange
  | unknownOpcode
  deriving DecidableEq, Repr

/-- `NPUConfig` from npu.py: array dimension N, data width W, memory depth D. -/
structure NPUConfig where
  array_size : ℕ
  data_width : ℕ
  mem_depth  : ℕ
  deriving DecidableEq, Repr

/-- `self.max_val = (2**data_width) - 1`. -/
def NPUConfig.max_val (c : NPUConfig) : ℤ := 2 ^ c.data_width - 1

/-- Writes the values one word at a time at consecutive addresses
(the loop body shared by `Memory.load_hex_string` and `Memory.write_block`).
`List.set` at an in-range index models `self.mem[addr + i] = val`. -/
def write_seq : List ℤ → ℕ → List ℤ → List ℤ
  | mem, _, [] => mem
  | mem, addr, v :: rest => write_seq (mem.set addr v) (addr + 1) rest

/-- `Memory.load_hex_string`: writes the parsed tokens starting at
`start_addr`, raising `Memory Overflow` as soon as an index reaches the end
of memory.  The hex encode/decode between the driver and this method
(`f"{x:02X}"` then `int(token, 16)`) is the identity on integers and is not
modelled separately. -/
def load_hex_string (mem : List ℤ) (start_addr : ℕ) (tokens : List ℤ) :
    Except Err (List ℤ) :=
  if tokens.length ≠ 0 ∧ mem.length < start_addr + tokens.length then
    .error .memoryOverflow
  else
    .ok (write_seq mem start_addr tokens)

/-- `Memory.read_block`: the Python slice `self.mem[addr : addr + size]`.
Note there is no bounds check: a block reaching past the end of memory is
silently truncated, exactly as a Python slice is. -/
def read_block (mem : List ℤ) (addr size : ℕ) : List ℤ :=
  (mem.drop addr).take size

/-- `Memory.write_block`: `self.mem[addr + i] = val` for each value; a write
at an index `≥ len(self.mem)` raises `IndexError`. -/
def write_block (mem : List ℤ) (addr : ℕ) (data : List ℤ) :
    Except Err (List ℤ) :=
  if data.length ≠ 0 ∧ mem.length < addr + data.length then
    .error .indexError
  else
    .ok (write_seq mem addr data)

/-- `SystolicArray.load_weights`: length check against `self.n * self.n`,
then `weights[r][c] = weight_matrix_flat[r * self.n + c]` row-major. -/
def load_weights (n : ℕ) (weight_matrix_flat : List ℤ) :
    Except Err (List (List ℤ)) :=
  if weight_matrix_flat.length ≠ n * n then
    .error .dimensionMismatch
  else
    .ok ((List.range n).map fun r =>
      (List.range n).map fun c => weight_matrix_flat.getD (r * n + c) 0)

/-- `SystolicArray.run_matmul`: length check, reconstruction of the input
matrix by row slices `input_matrix_flat[i*n : (i+1)*n]`, triple-loop
accumulation `acc += matrix_a[i][k] * self.weights[k][j]` (the inner `k`
loop is the sum over `Finset.range n`), and row-major flattening. -/
def run_matmul (n : ℕ) (weights : List (List ℤ)) (input_matrix_flat : List ℤ) :
    Except Err (List ℤ) :=
  if input_matrix_flat.length ≠ n * n then
    .error .dimensionMismatch
  else
    let matrix_a : ℕ → ℕ → ℤ := fun i k =>
      ((input_matrix_flat.drop (i * n)).take n).getD k 0
    let acc : ℕ → ℕ → ℤ := fun i j =>
      ∑ k ∈ Finset.range n, matrix_a i k * ((weights.getD k []).getD j 0)
    .ok (((List.range n).map fun i => (List.range n).map fun j => acc i j).flatten)

/-- Python's built-in `round`: round half to even (banker's rounding). -/
def round_half_even (q : ℚ) : ℤ :=
  if q - ⌊q⌋ < 1 / 2 then ⌊q⌋
  else if (1 : ℚ) / 2 < q - ⌊q⌋ then ⌊q⌋ + 1
  else if ⌊q⌋ % 2 = 0 then ⌊q⌋ else ⌊q⌋ + 1

/-- The per-element body of `PPU.process`: ReLU (`x if x > 0 else 0` when
`activation == "RELU"`, otherwise the identity), division by `scale` unless
`scale == 0`, addition of `zero_point`, `round`, and saturation
`max(0, min(val_q, max_val))`.  Returns `(val_act, quantized)`. -/
def process_elem (max_val : ℤ) (scale : ℚ) (zero_point : ℤ)
    (activation : String) (x : ℤ) : ℤ × ℤ :=
  let val_act : ℤ := if activation = "RELU" then (if 0 < x then x else 0) else x
  let val_q0 : ℚ := if scale ≠ 0 then (val_act : ℚ) / scale else (val_act : ℚ)
  let val_q1 : ℚ := val_q0 + (zero_point : ℚ)
  let val_q2 : ℤ := round_half_even val_q1
  (val_act, max 0 (min val_q2 max_val))

/-- `PPU.process`: one pass over the data appending to `activated_list` and
`quantized_list`; returned as the pair of the two lists. -/
def process (max_val : ℤ) (data : List ℤ) (scale : ℚ) (zero_point : ℤ)
    (activation : String) : List ℤ × List ℤ :=
  (data.map fun x => (process_elem max_val scale zero_point activation x).1,
   data.map fun x => (process_elem max_val scale zero_point activation x).2)

/-- The instruction dicts of npu.py: `{'op': 'LOAD_WEIGHTS', 'addr': ...}`,
`{'op': 'MATMUL', 'src': ..., 'dst': ..., 'scale': ..., 'zero_point': ...}`,
`{'op': 'HALT'}`.  `unknownOp s` stands for a dict whose `'op'` string `s`
is none of the three recognized opcodes. -/
inductive Instr where
  | loadWeightsOp (addr : ℕ)
  | matmulOp (src dst : ℕ) (scale : ℚ) (zero_point : ℤ)
  | haltOp
  | unknownOp (op : String)
  deriving DecidableEq, Repr

/-- The state a `Controller` acts on: the unified memory and the systolic
array's stationary weight registers. -/
structure CtrlState where
  mem : List ℤ
  weights : List (List ℤ)
  deriving DecidableEq, Repr

/-- `Controller.execute_program` from npu.py: dispatch per opcode.
`LOAD_WEIGHTS` reads an `array_size ** 2` block and loads it into the array;
`MATMUL` reads the source block, runs the array, runs the PPU (with the
PPU's default `activation="RELU"`), and writes the quantized result to the
destination; `HALT` breaks out of the loop; a dict whose opcode matches no
branch of the `if/elif` chain is silently skipped (there is no `else`). -/
def execute_program (cfg : NPUConfig) : List Instr → CtrlState → Except Err CtrlState
  | [], st => .ok st
  | instr :: rest, st =>
    match instr with
    | .loadWeightsOp addr =>
      match load_weights cfg.array_size
          (read_block st.mem addr (cfg.array_size ^ 2)) with
      | .error e => .error e
      | .ok w => execute_program cfg rest { st with weights := w }
    | .matmulOp src dst scale zero_point =>
      match run_matmul cfg.array_size st.weights
          (read_block st.mem src (cfg.array_size ^ 2)) with
      | .error e => .error e
      | .ok raw =>
        match write_block st.mem dst
            (process cfg.max_val raw scale zero_point "RELU").2 with
        | .error e => .error e
        | .ok mem2 => execute_program cfg rest { st with mem := mem2 }
    | .haltOp => .ok st
    | .unknownOp _ => execute_program cfg rest st

/-- A layer descriptor consumed by the driver:
`{'weights': ..., 'scale': ..., 'zero_point': ...}`. -/
structure LayerDesc where
  weights : List ℤ
  scale : ℚ
  zero_point : ℤ
  deriving DecidableEq, Repr

/-- `NPUDriver.ADDR_WEIGHTS = 0x000`. -/
def ADDR_WEIGHTS : ℕ := 0x000

/-- `NPUDriver.ADDR_BUF_A = 0x100`. -/
def ADDR_BUF_A : ℕ := 0x100

/-- `NPUDriver.ADDR_BUF_B = 0x200`. -/
def ADDR_BUF_B : ℕ := 0x200

/-- `NPUDriver.BLOCK_SIZE = self.config.array_size ** 2`. -/
def BLOCK_SIZE (cfg : NPUConfig) : ℕ := cfg.array_size ^ 2

/-- The per-layer loop of `NPUDriver.run_inference`: stage the layer's
weights at `ADDR_WEIGHTS`, execute the two-instruction micro-program
`[LOAD_WEIGHTS{weightAddr}, MATMUL{src, dst, scale, zero_point}]`, then swap
the ping-pong pointers.  Returns the final `current_src` together with the
final state. -/
def run_layers (cfg : NPUConfig) :
    List LayerDesc → ℕ → ℕ → CtrlState → Except Err (ℕ × CtrlState)
  | [], src, _dst, st => .ok (src, st)
  | layer :: rest, src, dst, st =>
    match load_hex_string st.mem ADDR_WEIGHTS layer.weights with
    | .error e => .error e
    | .ok mem1 =>
      match execute_program cfg
          [Instr.loadWeightsOp ADDR_WEIGHTS,
           Instr.matmulOp src dst layer.scale layer.zero_point]
          { st with mem := mem1 } with
      | .error e => .error e
      | .ok st2 => run_layers cfg rest dst src st2

/-- `NPUDriver.run_inference` from npu_wrapper.py: fresh zeroed memory and
weight registers (from the constructors of `Memory` and `SystolicArray`),
the input loaded into buffer A, the ping-pong layer loop, and a final
`read_block` of `BLOCK_SIZE` words from the address that received the last
write.  The source passes an extra `layer_num` argument to
`Controller.execute_program` (which npu.py declares with a single `program`
parameter); that argument — used only to name debug files in other
revisions of the controller — is dropped here, as is the `'layer_id'` key of
the MATMUL dict, which the controller never reads. -/
def run_inference (cfg : NPUConfig) (input_data : List ℤ)
    (layers : List LayerDesc) : Except Err (List ℤ) :=
  let mem0 : List ℤ := List.replicate cfg.mem_depth 0
  let w0 : List (List ℤ) :=
    List.replicate cfg.array_size (List.replicate cfg.array_size 0)
  match load_hex_string mem0 ADDR_BUF_A input_data with
  | .error e => .error e
  | .ok mem1 =>
    (run_layers cfg layers ADDR_BUF_A ADDR_BUF_B
        { mem := mem1, weights := w0 }).map
      fun p => read_block p.2.mem p.1 (BLOCK_SIZE cfg)

/-! ### Spec-side definitions (for refinement comparisons) -/

/-- Modelled from the spec: the activation `a = max(x, 0)`. -/
def spec_relu (x : ℤ) : ℤ := max x 0

/-- Modelled from the spec: round half away from zero, the alternative
rounding rule the spec allows. -/
def round_half_away (q : ℚ) : ℤ :=
  if 0 ≤ q then ⌊q + 1 / 2⌋ else -⌊-q + 1 / 2⌋

/-- Modelled from the spec: the claimed quantization order
`q = round(a / scale) + zeroPoint` (rounding before the zero-point shift),
parameterized by the rounding rule, then clamped to `[0, max_val]`;
division is skipped when `scale = 0`. -/
def spec_quantize_pre (rnd : ℚ → ℤ) (max_val : ℤ) (scale : ℚ)
    (zero_point : ℤ) (x : ℤ) : ℤ :=
  let a := spec_relu x
  let q := rnd (if scale ≠ 0 then (a : ℚ) / scale else (a : ℚ)) + zero_point
  max 0 (min q max_val)

/-- Amended quantization formula, matching the code: the zero-point is added
before rounding, and the rounding rule is round-half-to-even
(`q = round(a / scale + zeroPoint)`), then clamping to `[0, max_val]`. -/
def spec_quantize_post (max_val : ℤ) (scale : ℚ) (zero_point : ℤ) (x : ℤ) : ℤ :=
  let a := spec_relu x
  let q := round_half_even
    ((if scale ≠ 0 then (a : ℚ) / scale else (a : ℚ)) + (zero_point : ℚ))
  max 0 (min q max_val)

/-- Pairwise interval-disjointness of the driver's three memory regions:
the weight staging block, buffer A and buffer B, each `BLOCK_SIZE` long. -/
def mem_map_disjoint (cfg : NPUConfig) : Prop :=
  (ADDR_WEIGHTS + BLOCK_SIZE cfg ≤ ADDR_BUF_A ∨ ADDR_BUF_A + BLOCK_SIZE cfg ≤ ADDR_WEIGHTS)
  ∧ (ADDR_WEIGHTS + BLOCK_SIZE cfg ≤ ADDR_BUF_B ∨ ADDR_BUF_B + BLOCK_SIZE cfg ≤ ADDR_WEIGHTS)
  ∧ (ADDR_BUF_A + BLOCK_SIZE cfg ≤ ADDR_BUF_B ∨ ADDR_BUF_B + BLOCK_SIZE cfg ≤ ADDR_BUF_A)

/-! ### Helper lemmas -/

lemma relu_if_eq_max (x : ℤ) : (if 0 < x then x else 0) = max x 0 := by
  split <;> omega

lemma process_elem_relu (mv : ℤ) (s : ℚ) (zp : ℤ) (x : ℤ) :
    process_elem mv s zp "RELU" x = (spec_relu x, spec_quantize_post mv s zp x) := by
  unfold process_elem spec_quantize_post spec_relu
  simp [relu_if_eq_max]

lemma round_half_even_intCast (z : ℤ) : round_half_even (z : ℚ) = z := by
  unfold round_half_even
  rw [Int.floor_intCast]
  norm_num

lemma fract_half : Int.fract ((1 : ℚ) / 2) = 1 / 2 :=
  Int.fract_eq_self.mpr (by norm_num)

lemma read_block_length (mem : List ℤ) (addr size : ℕ) :
    (read_block mem addr size).length = min size (mem.length - addr) := by
  simp [read_block]

lemma read_block_getD (mem : List ℤ) (addr size i : ℕ)
    (hi : i < (read_block mem addr size).length) :
    (read_block mem addr size).getD i 0 = mem.getD (addr + i) 0 := by
  rw [read_block_length] at hi
  have hisize : i < size := lt_of_lt_of_le hi (min_le_left _ _)
  rw [read_block, List.getD_eq_getElem?_getD, List.getD_eq_getElem?_getD,
    List.getElem?_take, if_pos hisize, List.getElem?_drop]

/-! ### Claim theorems -/

/-- C2 counterexample: the code rounds after adding the zero-point
(`round(a/scale + zp)`), so it matches the claimed formula
`round(a/scale) + zp` under neither of the two allowed rounding rules.
At `x = 1, scale = 2, zeroPoint = 1` the code yields 2 while the claimed
formula with round-half-to-even yields 1; at `x = 1, scale = 2,
zeroPoint = 0` the code yields 0 while the claimed formula with
round-half-away-from-zero yields 1. -/
theorem C2_round_order_counterexample :
    (process 255 [1] 2 1 "RELU").2 = [2]
    ∧ ([1] : List ℤ).map (spec_quantize_pre round_half_even 255 2 1) = [1]
    ∧ (process 255 [1] 2 0 "RELU").2 = [0]
    ∧ ([1] : List ℤ).map (spec_quantize_pre round_half_away 255 2 0) = [1] := by
  refine ⟨?_, ?_, ?_, ?_⟩
  · simp [process, process_elem, round_half_even]
    norm_num [fract_half]
  · simp [spec_quantize_pre, spec_relu, round_half_even]
    norm_num [fract_half]
  · simp [process, process_elem, round_half_even]
    norm_num [fract_half]
  · have h : ⌊(1 / 2 + 1 / 2 : ℚ)⌋ = 1 := by norm_num
    simp [spec_quantize_pre, spec_relu, round_half_away]
    norm_num [h]

/-- C2 (amended): for every element, scale and integer zero-point, with RELU
activation, `PPU.process` computes `a = max(x, 0)` and
`q = clamp(round(a / scale + zeroPoint), 0, max_val)` with round-half-to-even
(Python's `round`); division is skipped when `scale = 0`; the first returned
sequence holds the `a` values and the second the `q` values. -/
theorem C2_process_formula (max_val : ℤ) (data : List ℤ) (scale : ℚ)
    (zero_point : ℤ) :
    process max_val data scale zero_point "RELU" =
      (data.map spec_relu, data.map (spec_quantize_post max_val scale zero_point)) := by
  unfold process
  refine Prod.ext ?_ ?_ <;>
    exact List.map_congr_left fun x _ => by rw [process_elem_relu]

/-- C3 counterexample: `Memory.read_block` performs no bounds check; on a
4-word memory, reading 4 words at address 2 silently returns the 2-word
truncated block `[3, 4]` instead of failing with `OutOfRange`. -/
theorem C3_read_block_truncates :
    read_block ([1, 2, 3, 4] : List ℤ) 2 4 = [3, 4]
    ∧ (read_block ([1, 2, 3, 4] : List ℤ) 2 4).length < 4 := by
  refine ⟨?_, ?_⟩ <;> decide

/-- C3 (amended): `Memory.read_block(addr, size)` never fails; it returns a
copy of the contiguous words from `addr` up to the memory boundary — exactly
`min size (depth − addr)` words, the `i`-th being the word at `addr + i` —
silently truncating any block that exceeds the bounds. -/
theorem C3_read_block_spec (mem : List ℤ) (addr size : ℕ) :
    (read_block mem addr size).length = min size (mem.length - addr)
    ∧ ∀ i, i < (read_block mem addr size).length →
        (read_block mem addr size).getD i 0 = mem.getD (addr + i) 0 :=
  ⟨read_block_length mem addr size, fun i hi => read_block_getD mem addr size i hi⟩

/-- C3 witness. -/
theorem C3_read_block_spec_witness :
    (read_block ([1, 2, 3, 4] : List ℤ) 2 4).length = min 4 (4 - 2)
    ∧ (read_block ([1, 2, 3, 4] : List ℤ) 2 4).getD 1 0 =
        ([1, 2, 3, 4] : List ℤ).getD (2 + 1) 0 :=
  ⟨(C3_read_block_spec [1, 2, 3, 4] 2 4).1,
   (C3_read_block_spec [1, 2, 3, 4] 2 4).2 1 (by decide)⟩

/-- C4 counterexample: `Controller.execute_program` has no `else` branch, so
an unrecognized opcode is silently skipped rather than failing with
`UnknownOpcode`, and execution continues past it: here the `LOAD_WEIGHTS`
following the unknown opcode is still executed (the weight register becomes
`[[7]]`). -/
theorem C4_unknown_opcode_counterexample :
    execute_program ⟨1, 8, 1⟩ [.unknownOp "NOP", .loadWeightsOp 0]
        ⟨[7], [[0]]⟩ = .ok ⟨[7], [[7]]⟩
    ∧ execute_program ⟨1, 8, 1⟩ [.unknownOp "NOP", .loadWeightsOp 0]
        ⟨[7], [[0]]⟩ ≠ .error .unknownOpcode := by
  constructor
  · rfl
  · intro h
    rw [show execute_program ⟨1, 8, 1⟩ [.unknownOp "NOP", .loadWeightsOp 0]
        ⟨[7], [[0]]⟩ = .ok ⟨[7], [[7]]⟩ from rfl] at h
    exact Except.noConfusion h

/-- C4 (amended): an instruction whose opcode is none of `LOAD_WEIGHTS`,
`MATMUL`, `HALT` is silently ignored by `Controller.execute_program`:
execution continues with the rest of the program on an unchanged state, and
no `UnknownOpcode` failure exists in the code. -/
theorem C4_unknown_opcode_skipped (cfg : NPUConfig) (op : String)
    (rest : List Instr) (st : CtrlState) :
    execute_program cfg (.unknownOp op :: rest) st = execute_program cfg rest st :=
  rfl

/-- C8 counterexample: with `array_size = 17` the weight staging area
`[0, 289)` overlaps buffer A `[256, 545)`, so the claim fails for that `N`. -/
theorem C8_overlap_at_17 : ¬ mem_map_disjoint ⟨17, 8, 2048⟩ := by
  unfold mem_map_disjoint BLOCK_SIZE ADDR_WEIGHTS ADDR_BUF_A ADDR_BUF_B
  decide

/-- C8 (amended): the driver's three address ranges are pairwise
non-overlapping exactly when `N ≤ 16` (that is, `BLOCK_SIZE = N² ≤ 256`,
the gap between the hardcoded base addresses); the default `N = 8`
satisfies this, but any `N ≥ 17` makes the staging area overlap buffer A. -/
theorem C8_disjoint_iff (cfg : NPUConfig) :
    mem_map_disjoint cfg ↔ cfg.array_size ≤ 16 := by
  unfold mem_map_disjoint BLOCK_SIZE ADDR_WEIGHTS ADDR_BUF_A ADDR_BUF_B
  constructor
  · rintro ⟨h1 | h1, -, -⟩
    · by_contra hgt
      push_neg at hgt
      have : 17 ^ 2 ≤ cfg.array_size ^ 2 := Nat.pow_le_pow_left hgt 2
      omega
    · omega
  · intro h
    have : cfg.array_size ^ 2 ≤ 16 ^ 2 := Nat.pow_le_pow_left h 2
    refine ⟨Or.inl ?_, Or.inl ?_, Or.inl ?_⟩ <;> omega


lemma execute_program_stops_at_halt (cfg : NPUConfig) (pre post : List Instr)
    (st : CtrlState) :
    execute_program cfg (pre ++ Instr.haltOp :: post) st =
      execute_program cfg (pre ++ [Instr.haltOp]) st := by
  induction pre generalizing st with
  | nil => rfl
  | cons i pre ih =>
    cases i with
    | loadWeightsOp addr =>
      simp only [List.cons_append, execute_program]
      cases load_weights cfg.array_size (read_block st.mem addr (cfg.array_size ^ 2)) with
      | error e => rfl
      | ok w => exact ih _
    | matmulOp src dst scale zp =>
      simp only [List.cons_append, execute_program]
      cases run_matmul cfg.array_size st.weights (read_block st.mem src (cfg.array_size ^ 2)) with
      | error e => rfl
      | ok raw =>
        dsimp only
        cases write_block st.mem dst (process cfg.max_val raw scale zp "RELU").2 with
        | error e => rfl
        | ok mem2 => exact ih _
    | haltOp => rfl
    | unknownOp op =>
      simp only [List.cons_append, execute_program]
      exact ih st

lemma process_elem_snd_bounds (mv : ℤ) (hmv : 0 ≤ mv) (s : ℚ) (zp : ℤ)
    (act : String) (x : ℤ) :
    0 ≤ (process_elem mv s zp act x).2 ∧ (process_elem mv s zp act x).2 ≤ mv := by
  unfold process_elem
  dsimp only
  omega

lemma process_scale_zero_eval :
    (process ((2 : ℤ) ^ 8 - 1) [5] 0 2 "RELU").2 = [7] := by
  simp [process, process_elem]
  have h7 : round_half_even ((5 : ℚ) + 2) = 7 := by
    have h : ((5 : ℚ) + 2) = ((7 : ℤ) : ℚ) := by norm_num
    rw [h, round_half_even_intCast]
  rw [h7]
  decide

set_option maxRecDepth 100000 in
/-- C5 counterexample: `run_inference` performs no input-length validation:
on a 2×2 driver a 1-element input (length ≠ N² = 4) is loaded as-is and the
run completes without any `DimensionMismatch`, returning the block at buffer
A padded by the memory's initial zeros. -/
theorem C5_no_input_validation :
    run_inference ⟨2, 8, 520⟩ [10] [] = .ok [10, 0, 0, 0]
    ∧ ([10] : List ℤ).length ≠ 2 * 2 :=
  ⟨rfl, by decide⟩

/-- C5 (amended): `run_inference` never validates `len(input) == N²`: the
input-loading step fails only with `Memory Overflow` (when the input is
nonempty and extends past the memory depth), and otherwise execution
proceeds to the layer loop regardless of the input's length. -/
theorem C5_input_load_characterization (cfg : NPUConfig) (input : List ℤ)
    (layers : List LayerDesc) :
    (input ≠ [] → cfg.mem_depth < ADDR_BUF_A + input.length →
      run_inference cfg input layers = .error .memoryOverflow)
    ∧ (ADDR_BUF_A + input.length ≤ cfg.mem_depth →
      run_inference cfg input layers =
        (run_layers cfg layers ADDR_BUF_A ADDR_BUF_B
            { mem := write_seq (List.replicate cfg.mem_depth 0) ADDR_BUF_A input,
              weights := List.replicate cfg.array_size
                (List.replicate cfg.array_size 0) }).map
          fun p => read_block p.2.mem p.1 (BLOCK_SIZE cfg)) := by
  constructor
  · intro hne hlt
    have hload : load_hex_string (List.replicate cfg.mem_depth 0) ADDR_BUF_A input =
        .error .memoryOverflow := by
      unfold load_hex_string
      rw [if_pos ⟨fun h => hne (List.length_eq_zero.mp h), by simpa using hlt⟩]
    simp only [run_inference]
    rw [hload]
  · intro hle
    have hcond : ¬(input.length ≠ 0 ∧
        (List.replicate cfg.mem_depth (0 : ℤ)).length < ADDR_BUF_A + input.length) := by
      simp only [List.length_replicate]
      omega
    have hload : load_hex_string (List.replicate cfg.mem_depth 0) ADDR_BUF_A input =
        .ok (write_seq (List.replicate cfg.mem_depth 0) ADDR_BUF_A input) := by
      unfold load_hex_string
      rw [if_neg hcond]
    simp only [run_inference]
    rw [hload]

/-- C5 witness. -/
theorem C5_input_load_characterization_witness :
    run_inference ⟨2, 8, 100⟩ [10] [] = .error .memoryOverflow :=
  (C5_input_load_characterization ⟨2, 8, 100⟩ [10] []).1 (by decide) (by decide)

/-- C6: once a `HALT` instruction is reached the Controller executes no
later instruction — a program `pre ++ [HALT] ++ post` behaves exactly like
`pre ++ [HALT]` — and in particular for
`[LOAD_WEIGHTS{0}, HALT, MATMUL{...}]` the MATMUL is never executed and the
memory (hence the destination block) keeps the value it had before the run. -/
theorem C6_halt_stops :
    (∀ (cfg : NPUConfig) (pre post : List Instr) (st : CtrlState),
        execute_program cfg (pre ++ Instr.haltOp :: post) st =
          execute_program cfg (pre ++ [Instr.haltOp]) st)
    ∧ ∀ (cfg : NPUConfig) (st : CtrlState) (src dst : ℕ) (scale : ℚ)
        (zero_point : ℤ),
        cfg.array_size ^ 2 ≤ st.mem.length →
        (execute_program cfg
            [.loadWeightsOp 0, .haltOp, .matmulOp src dst scale zero_point] st).map
          CtrlState.mem = .ok st.mem := by
  refine ⟨execute_program_stops_at_halt, ?_⟩
  intro cfg st src dst scale zp hle
  have hlen : (read_block st.mem 0 (cfg.array_size ^ 2)).length = cfg.array_size ^ 2 := by
    rw [read_block_length]
    omega
  have hlw : load_weights cfg.array_size (read_block st.mem 0 (cfg.array_size ^ 2)) =
      .ok ((List.range cfg.array_size).map fun r =>
        (List.range cfg.array_size).map fun c =>
          (read_block st.mem 0 (cfg.array_size ^ 2)).getD (r * cfg.array_size + c) 0) := by
    unfold load_weights
    rw [if_neg fun h => h (by rw [hlen, pow_two])]
  simp only [execute_program]
  rw [hlw]
  rfl

/-- C6 witness. -/
theorem C6_halt_stops_witness :
    (execute_program ⟨1, 8, 2⟩ [.loadWeightsOp 0, .haltOp, .matmulOp 0 1 1 0]
        ⟨[5, 6], [[0]]⟩).map CtrlState.mem = .ok [5, 6] :=
  C6_halt_stops.2 ⟨1, 8, 2⟩ ⟨[5, 6], [[0]]⟩ 0 1 1 0 (by decide)

/-- C9: for every data width, input sequence, scale (including 0 and
negative values), integer zero-point and activation string, `PPU.process`
returns two sequences of exactly the input's length, and every element of
the quantized sequence lies in `[0, 2^W − 1]`. -/
theorem C9_process_bounds (W : ℕ) (data : List ℤ) (scale : ℚ)
    (zero_point : ℤ) (activation : String) :
    (process ((2 : ℤ) ^ W - 1) data scale zero_point activation).1.length = data.length
    ∧ (process ((2 : ℤ) ^ W - 1) data scale zero_point activation).2.length = data.length
    ∧ ∀ q ∈ (process ((2 : ℤ) ^ W - 1) data scale zero_point activation).2,
        0 ≤ q ∧ q ≤ (2 : ℤ) ^ W - 1 := by
  refine ⟨by simp [process], by simp [process], ?_⟩
  intro q hq
  simp only [process, List.mem_map] at hq
  obtain ⟨x, -, hx⟩ := hq
  have h2 : (0 : ℤ) < 2 ^ W := pow_pos (by norm_num) W
  rw [← hx]
  exact process_elem_snd_bounds _ (by omega) _ _ _ _

/-- C9 witness. -/
theorem C9_process_bounds_witness :
    (7 : ℤ) ∈ (process ((2 : ℤ) ^ 8 - 1) [5] 0 2 "RELU").2
    ∧ 0 ≤ (7 : ℤ) ∧ (7 : ℤ) ≤ (2 : ℤ) ^ 8 - 1 :=
  ⟨by rw [process_scale_zero_eval]; exact List.mem_singleton.mpr rfl,
   (C9_process_bounds 8 [5] 0 2 "RELU").2.2 7
     (by rw [process_scale_zero_eval]; exact List.mem_singleton.mpr rfl)⟩

/-- C10: whenever `addr + N² > depth` (and `N ≥ 1`), a `LOAD_WEIGHTS{addr}`
does not fail with an `OutOfRange` memory error: `Memory.read_block`
silently returns a truncated block of fewer than `N²` words, and the run
fails with the `DimensionMismatch` length check of
`SystolicArray.load_weights` instead. -/
theorem C10_truncated_load_weights (cfg : NPUConfig) (st : CtrlState)
    (addr : ℕ) (hmem : st.mem.length = cfg.mem_depth)
    (hoob : cfg.mem_depth < addr + cfg.array_size ^ 2)
    (hn : 1 ≤ cfg.array_size) :
    (read_block st.mem addr (cfg.array_size ^ 2)).length < cfg.array_size ^ 2
    ∧ execute_program cfg [.loadWeightsOp addr] st = .error .dimensionMismatch := by
  have hpos : 1 ≤ cfg.array_size ^ 2 := by
    have := Nat.pow_le_pow_left hn 2
    simpa using this
  have hlt : (read_block st.mem addr (cfg.array_size ^ 2)).length < cfg.array_size ^ 2 := by
    rw [read_block_length]
    omega
  refine ⟨hlt, ?_⟩
  have hlw : load_weights cfg.array_size (read_block st.mem addr (cfg.array_size ^ 2)) =
      .error .dimensionMismatch := by
    unfold load_weights
    rw [if_pos]
    rw [← pow_two]
    omega
  simp only [execute_program]
  rw [hlw]

/-- C10 witness. -/
theorem C10_truncated_load_weights_witness :
    (read_block [0, 0, 0, 0, 0] 3 ((2 : ℕ) ^ 2)).length < (2 : ℕ) ^ 2
    ∧ execute_program ⟨2, 8, 5⟩ [.loadWeightsOp 3]
        ⟨[0, 0, 0, 0, 0], [[0, 0], [0, 0]]⟩ = .error .dimensionMismatch :=
  C10_truncated_load_weights ⟨2, 8, 5⟩ ⟨[0, 0, 0, 0, 0], [[0, 0], [0, 0]]⟩ 3
    (by decide) (by decide) (by decide)


/-- Flat row-major N×N identity matrix, the weight data of the claim. -/
def identity_flat (n : ℕ) : List ℤ :=
  (List.range (n * n)).map fun i => if i / n = i % n then 1 else 0

lemma getD_map_range {α : Type} (f : ℕ → α) (d : α) {n k : ℕ} (hk : k < n) :
    ((List.range n).map f).getD k d = f k := by
  rw [List.getD_eq_getElem _ _ (by simpa using hk)]
  simp

lemma row_col_idx_lt {n r c : ℕ} (hr : r < n) (hc : c < n) : r * n + c < n * n :=
  calc r * n + c < r * n + n := by omega
    _ = (r + 1) * n := by ring
    _ ≤ n * n := Nat.mul_le_mul_right n (by omega)

lemma identity_flat_getD {n r c : ℕ} (hr : r < n) (hc : c < n) :
    (identity_flat n).getD (r * n + c) 0 = if r = c then 1 else 0 := by
  have hn : 0 < n := by omega
  unfold identity_flat
  rw [getD_map_range _ _ (row_col_idx_lt hr hc)]
  have hdiv : (r * n + c) / n = r := by
    rw [Nat.add_comm, Nat.add_mul_div_right _ _ hn, Nat.div_eq_of_lt hc, Nat.zero_add]
  have hmod : (r * n + c) % n = c := by
    rw [Nat.add_comm, Nat.add_mul_mod_self_right, Nat.mod_eq_of_lt hc]
  rw [hdiv, hmod]

lemma load_weights_identity (n : ℕ) :
    load_weights n (identity_flat n) =
      .ok ((List.range n).map fun r =>
        (List.range n).map fun c => if r = c then (1 : ℤ) else 0) := by
  unfold load_weights
  rw [if_neg (by simp [identity_flat])]
  congr 1
  apply List.map_congr_left
  intro r hr
  apply List.map_congr_left
  intro c hc
  exact identity_flat_getD (List.mem_range.mp hr) (List.mem_range.mp hc)

lemma getD_take_drop (l : List ℤ) (i n k : ℕ) (hk : k < n) :
    ((l.drop (i * n)).take n).getD k 0 = l.getD (i * n + k) 0 := by
  rw [List.getD_eq_getElem?_getD, List.getD_eq_getElem?_getD,
    List.getElem?_take, if_pos hk, List.getElem?_drop]

lemma range_map_getD_take (l : List ℤ) (n : ℕ) (h : n ≤ l.length) :
    (List.range n).map (fun j => l.getD j 0) = l.take n := by
  apply List.ext_getElem
  · simpa using (Nat.min_eq_left h).symm
  · intro i h1 h2
    have hi : i < n := by simpa using h1
    have hil : i < l.length := by omega
    simp only [List.getElem_map, List.getElem_range, List.getElem_take]
    rw [List.getD_eq_getElem _ _ hil]

lemma chunks_flatten (n : ℕ) :
    ∀ (m : ℕ) (l : List ℤ), l.length = m * n →
      ((List.range m).map fun i =>
        (List.range n).map fun j => l.getD (i * n + j) 0).flatten = l := by
  intro m
  induction m with
  | zero =>
    intro l hl
    have hnil : l = [] := List.length_eq_zero.mp (by simpa using hl)
    subst hnil
    simp
  | succ m ih =>
    intro l hl
    have hlen : l.length = m * n + n := by rw [hl, Nat.succ_mul]
    have hn_le : n ≤ l.length := by omega
    rw [List.range_succ_eq_map, List.map_cons, List.flatten_cons, List.map_map]
    have hrow : ∀ i ∈ List.range m,
        ((fun i => (List.range n).map fun j => l.getD (i * n + j) 0) ∘ Nat.succ) i =
          (List.range n).map fun j => (l.drop n).getD (i * n + j) 0 := by
      intro i _
      simp only [Function.comp]
      apply List.map_congr_left
      intro j _
      rw [List.getD_eq_getElem?_getD, List.getD_eq_getElem?_getD, List.getElem?_drop,
        show n + (i * n + j) = i.succ * n + j from by simp only [Nat.succ_eq_add_one]; ring]
    rw [List.map_congr_left hrow,
      ih (l.drop n) (by rw [List.length_drop, hlen]; omega)]
    have hhead : (List.range n).map (fun j => l.getD (0 * n + j) 0) = l.take n := by
      simp only [Nat.zero_mul, Nat.zero_add]
      exact range_map_getD_take l n hn_le
    rw [hhead, List.take_append_drop]

/-- C7: after loading the flattened N×N identity matrix into the systolic
array, `run_matmul` returns any N²-element input unchanged. -/
theorem C7_identity_matmul (n : ℕ) (input : List ℤ) (h : input.length = n * n) :
    (load_weights n (identity_flat n)).bind (fun w => run_matmul n w input) =
      .ok input := by
  rw [load_weights_identity]
  show run_matmul n _ input = .ok input
  unfold run_matmul
  rw [if_neg fun hne => hne h]
  dsimp only
  congr 1
  have hentry : ∀ i ∈ List.range n, (List.range n).map (fun j =>
      ∑ k ∈ Finset.range n, ((input.drop (i * n)).take n).getD k 0 *
        ((((List.range n).map fun r =>
          (List.range n).map fun c => if r = c then (1 : ℤ) else 0).getD k []).getD j 0)) =
      (List.range n).map fun j => input.getD (i * n + j) 0 := by
    intro i _
    apply List.map_congr_left
    intro j hj
    have hj' := List.mem_range.mp hj
    have hsum : ∀ k ∈ Finset.range n,
        ((input.drop (i * n)).take n).getD k 0 *
          ((((List.range n).map fun r =>
            (List.range n).map fun c => if r = c then (1 : ℤ) else 0).getD k []).getD j 0) =
        if k = j then ((input.drop (i * n)).take n).getD k 0 else 0 := by
      intro k hk
      rw [getD_map_range _ _ (Finset.mem_range.mp hk), getD_map_range _ _ hj']
      rw [mul_ite, mul_one, mul_zero]
    rw [Finset.sum_congr rfl hsum, Finset.sum_ite_eq' (Finset.range n) j
      (fun k => ((input.drop (i * n)).take n).getD k 0),
      if_pos (Finset.mem_range.mpr hj'), getD_take_drop _ _ _ _ hj']
  rw [List.map_congr_left hentry]
  exact chunks_flatten n n input h

/-- C7 witness. -/
theorem C7_identity_matmul_witness :
    (load_weights 2 (identity_flat 2)).bind (fun w => run_matmul 2 w [1, 2, 3, 4]) =
      .ok [1, 2, 3, 4] :=
  C7_identity_matmul 2 [1, 2, 3, 4] (by decide)


/-- Flat row-major N×N matrix `2·Identity`, layer 1's weights in the claim. -/
def two_identity_flat (n : ℕ) : List ℤ :=
  (List.range (n * n)).map fun i => if i / n = i % n then 2 else 0

lemma two_identity_flat_getD {n r c : ℕ} (hr : r < n) (hc : c < n) :
    (two_identity_flat n).getD (r * n + c) 0 = if r = c then 2 else 0 := by
  have hn : 0 < n := by omega
  unfold two_identity_flat
  rw [getD_map_range _ _ (row_col_idx_lt hr hc)]
  have hdiv : (r * n + c) / n = r := by
    rw [Nat.add_comm, Nat.add_mul_div_right _ _ hn, Nat.div_eq_of_lt hc, Nat.zero_add]
  have hmod : (r * n + c) % n = c := by
    rw [Nat.add_comm, Nat.add_mul_mod_self_right, Nat.mod_eq_of_lt hc]
  rw [hdiv, hmod]

lemma load_weights_two_identity (n : ℕ) :
    load_weights n (two_identity_flat n) =
      .ok ((List.range n).map fun r =>
        (List.range n).map fun c => if r = c then (2 : ℤ) else 0) := by
  unfold load_weights
  rw [if_neg (by simp [two_identity_flat])]
  congr 1
  apply List.map_congr_left
  intro r hr
  apply List.map_congr_left
  intro c hc
  exact two_identity_flat_getD (List.mem_range.mp hr) (List.mem_range.mp hc)

lemma write_seq_length (data : List ℤ) :
    ∀ (mem : List ℤ) (a : ℕ), (write_seq mem a data).length = mem.length := by
  induction data with
  | nil => intro mem a; rfl
  | cons v rest ih =>
    intro mem a
    rw [write_seq, ih, List.length_set]

lemma getElem?_write_seq_of_lt (data : List ℤ) :
    ∀ (mem : List ℤ) (a i : ℕ), i < a → (write_seq mem a data)[i]? = mem[i]? := by
  induction data with
  | nil => intro mem a i _; rfl
  | cons v rest ih =>
    intro mem a i hi
    rw [write_seq, ih _ _ _ (by omega), List.getElem?_set_ne (by omega)]

lemma getElem?_write_seq_of_ge (data : List ℤ) :
    ∀ (mem : List ℤ) (a i : ℕ), a + data.length ≤ i →
      (write_seq mem a data)[i]? = mem[i]? := by
  induction data with
  | nil => intro mem a i _; rfl
  | cons v rest ih =>
    intro mem a i hi
    rw [List.length_cons] at hi
    rw [write_seq, ih _ _ _ (by omega), List.getElem?_set_ne (by omega)]

lemma getElem?_write_seq_in (data : List ℤ) :
    ∀ (mem : List ℤ) (a j : ℕ), j < data.length → a + data.length ≤ mem.length →
      (write_seq mem a data)[a + j]? = data[j]? := by
  induction data with
  | nil => intro mem a j hj _; simp at hj
  | cons v rest ih =>
    intro mem a j hj hbound
    rw [List.length_cons] at hbound
    cases j with
    | zero =>
      rw [Nat.add_zero, write_seq,
        getElem?_write_seq_of_lt rest _ _ _ (by omega),
        List.getElem?_set_self (by omega)]
      simp
    | succ k =>
      rw [List.length_cons] at hj
      rw [show a + (k + 1) = (a + 1) + k from by omega, write_seq,
        ih _ _ _ (by omega) (by rw [List.length_set]; omega)]
      simp

lemma read_block_write_seq_eq (mem data : List ℤ) (a : ℕ)
    (h : a + data.length ≤ mem.length) :
    read_block (write_seq mem a data) a data.length = data := by
  apply List.ext_getElem?
  intro i
  rw [read_block, List.getElem?_take]
  by_cases hi : i < data.length
  · rw [if_pos hi, List.getElem?_drop, getElem?_write_seq_in data mem a i hi h]
  · rw [if_neg hi, Eq.comm, List.getElem?_eq_none]
    omega

lemma read_block_write_seq_disjoint (mem data : List ℤ) (a b size : ℕ)
    (h : a + data.length ≤ b ∨ b + size ≤ a) :
    read_block (write_seq mem a data) b size = read_block mem b size := by
  apply List.ext_getElem?
  intro i
  rw [read_block, read_block, List.getElem?_take, List.getElem?_take]
  by_cases hi : i < size
  · rw [if_pos hi, if_pos hi, List.getElem?_drop, List.getElem?_drop]
    rcases h with h | h
    · exact getElem?_write_seq_of_ge data mem a (b + i) (by omega)
    · exact getElem?_write_seq_of_lt data mem a (b + i) (by omega)
  · rw [if_neg hi, if_neg hi]

lemma write_block_ok (mem data : List ℤ) (a : ℕ)
    (h : a + data.length ≤ mem.length) :
    write_block mem a data = .ok (write_seq mem a data) := by
  unfold write_block
  rw [if_neg (by omega)]

lemma load_hex_string_ok (mem data : List ℤ) (a : ℕ)
    (h : a + data.length ≤ mem.length) :
    load_hex_string mem a data = .ok (write_seq mem a data) := by
  unfold load_hex_string
  rw [if_neg (by omega)]

lemma flatten_replicate_replicate (m n : ℕ) (x : ℤ) :
    (List.replicate m (List.replicate n x)).flatten = List.replicate (m * n) x := by
  induction m with
  | zero => simp
  | succ m ih =>
    rw [List.replicate_succ, List.flatten_cons, ih, ← List.replicate_add]
    congr 1
    rw [Nat.succ_mul]
    omega

lemma run_matmul_diag_replicate (n : ℕ) (w t : ℤ) :
    run_matmul n
      ((List.range n).map fun r => (List.range n).map fun c => if r = c then w else 0)
      (List.replicate (n * n) t) = .ok (List.replicate (n * n) (t * w)) := by
  unfold run_matmul
  rw [if_neg (by simp)]
  dsimp only
  congr 1
  have hrow : ∀ i ∈ List.range n,
      ((List.range n).map fun j => ∑ k ∈ Finset.range n,
        (((List.replicate (n * n) t).drop (i * n)).take n).getD k 0 *
          ((((List.range n).map fun r =>
            (List.range n).map fun c => if r = c then w else 0).getD k []).getD j 0)) =
      List.replicate n (t * w) := by
    intro i hi
    have hi' := List.mem_range.mp hi
    have hcell : ∀ j ∈ List.range n,
        (∑ k ∈ Finset.range n,
          (((List.replicate (n * n) t).drop (i * n)).take n).getD k 0 *
            ((((List.range n).map fun r =>
              (List.range n).map fun c => if r = c then w else 0).getD k []).getD j 0)) =
        t * w := by
      intro j hj
      have hj' := List.mem_range.mp hj
      have hsum : ∀ k ∈ Finset.range n,
          (((List.replicate (n * n) t).drop (i * n)).take n).getD k 0 *
            ((((List.range n).map fun r =>
              (List.range n).map fun c => if r = c then w else 0).getD k []).getD j 0) =
          if k = j then
            ((((List.replicate (n * n) t).drop (i * n)).take n).getD k 0) * w
          else 0 := by
        intro k hk
        rw [getD_map_range _ _ (Finset.mem_range.mp hk), getD_map_range _ _ hj',
          mul_ite, mul_zero]
      rw [Finset.sum_congr rfl hsum, Finset.sum_ite_eq' (Finset.range n) j _,
        if_pos (Finset.mem_range.mpr hj'), getD_take_drop _ _ _ _ hj',
        List.getD_eq_getElem _ _ (by simpa using row_col_idx_lt hi' hj')]
      simp
    rw [List.map_congr_left hcell, List.map_const', List.length_range]
  rw [List.map_congr_left hrow, List.map_const', List.length_range,
    flatten_replicate_replicate]

lemma process_replicate_snd (mv : ℤ) (m : ℕ) (x : ℤ) (s : ℚ) (zp : ℤ) :
    (process mv (List.replicate m x) s zp "RELU").2 =
      List.replicate m ((process_elem mv s zp "RELU" x).2) := by
  simp [process, List.map_replicate]


lemma pe_scale_one : (process_elem ((2 : ℤ) ^ 8 - 1) 1 0 "RELU" 20).2 = 20 := by
  unfold process_elem
  norm_num
  rw [show (20 : ℚ) = ((20 : ℤ) : ℚ) from by norm_num, round_half_even_intCast]
  decide

lemma pe_scale_two : (process_elem ((2 : ℤ) ^ 8 - 1) 2 0 "RELU" 20).2 = 10 := by
  unfold process_elem
  norm_num
  rw [show (10 : ℚ) = ((10 : ℤ) : ℚ) from by norm_num, round_half_even_intCast]
  decide

lemma read_back (mem data : List ℤ) (a size : ℕ) (hsz : size = data.length)
    (h : a + data.length ≤ mem.length) :
    read_block (write_seq mem a data) a size = data := by
  subst hsz
  exact read_block_write_seq_eq mem data a h

/-- C1 (intended behaviour, with the wrapper's extra `layer_num` call
argument elided): for every array size `N ≤ 16` and memory depth
`D ≥ 512 + N²`, running the 2-layer network — layer 1 weights `2·I` with
scale 1 and zero-point 0, layer 2 weights `I` with scale 2 and zero-point 0
— on an all-10s input of `N²` elements returns all 10s, read from the
ping-pong buffer that received the final write (buffer A after two swaps). -/
theorem C1_pingpong_all_tens (n D : ℕ) (hsize : n ^ 2 ≤ 256)
    (hD : 512 + n ^ 2 ≤ D) :
    run_inference ⟨n, 8, D⟩ (List.replicate (n * n) 10)
      [⟨two_identity_flat n, 1, 0⟩, ⟨identity_flat n, 2, 0⟩] =
      .ok (List.replicate (n * n) 10) := by
  have hp2 : n ^ 2 = n * n := pow_two n
  rw [hp2] at hsize hD
  simp only [run_inference, ADDR_WEIGHTS, ADDR_BUF_A, ADDR_BUF_B, BLOCK_SIZE, hp2]
  set M0 : List ℤ := List.replicate D 0 with hM0
  set INP : List ℤ := List.replicate (n * n) 10 with hINP
  have hM0len : M0.length = D := by simp [hM0]
  have hINPlen : INP.length = n * n := by simp [hINP]
  rw [load_hex_string_ok M0 INP 256 (by omega)]
  dsimp only
  set M1 : List ℤ := write_seq M0 256 INP with hM1
  have hM1len : M1.length = D := by rw [hM1, write_seq_length, hM0len]
  simp only [run_layers, ADDR_WEIGHTS]
  rw [load_hex_string_ok M1 (two_identity_flat n) 0
    (by simp [two_identity_flat]; omega)]
  dsimp only
  set M2 : List ℤ := write_seq M1 0 (two_identity_flat n) with hM2
  have hM2len : M2.length = D := by rw [hM2, write_seq_length, hM1len]
  simp only [execute_program, hp2]
  have hr1 : read_block M2 0 (n * n) = two_identity_flat n := by
    rw [hM2]
    exact read_back M1 (two_identity_flat n) 0 (n * n)
      (by simp [two_identity_flat]) (by simp [two_identity_flat]; omega)
  rw [hr1, load_weights_two_identity n]
  dsimp only
  have hr2 : read_block M2 256 (n * n) = INP := by
    rw [hM2, read_block_write_seq_disjoint M1 (two_identity_flat n) 0 256 (n * n)
      (Or.inl (by simp [two_identity_flat]; omega)), hM1]
    exact read_back M0 INP 256 (n * n) hINPlen.symm (by omega)
  rw [hr2, hINP, run_matmul_diag_replicate n 2 10,
    show ((10 : ℤ) * 2) = 20 from by norm_num]
  dsimp only [NPUConfig.max_val]
  rw [process_replicate_snd, pe_scale_one]
  rw [write_block_ok M2 (List.replicate (n * n) 20) 512 (by simp; omega)]
  dsimp only
  set M3 : List ℤ := write_seq M2 512 (List.replicate (n * n) 20) with hM3
  have hM3len : M3.length = D := by rw [hM3, write_seq_length, hM2len]
  rw [load_hex_string_ok M3 (identity_flat n) 0 (by simp [identity_flat]; omega)]
  dsimp only
  set M4 : List ℤ := write_seq M3 0 (identity_flat n) with hM4
  have hM4len : M4.length = D := by rw [hM4, write_seq_length, hM3len]
  have hr3 : read_block M4 0 (n * n) = identity_flat n := by
    rw [hM4]
    exact read_back M3 (identity_flat n) 0 (n * n)
      (by simp [identity_flat]) (by simp [identity_flat]; omega)
  rw [hr3, load_weights_identity n]
  dsimp only
  have hr4 : read_block M4 512 (n * n) = List.replicate (n * n) 20 := by
    rw [hM4, read_block_write_seq_disjoint M3 (identity_flat n) 0 512 (n * n)
      (Or.inl (by simp [identity_flat]; omega)), hM3]
    exact read_back M2 (List.replicate (n * n) 20) 512 (n * n) (by simp) (by simp; omega)
  rw [hr4, run_matmul_diag_replicate n 1 20,
    show ((20 : ℤ) * 1) = 20 from by norm_num]
  dsimp only [NPUConfig.max_val]
  rw [process_replicate_snd, pe_scale_two]
  rw [write_block_ok M4 (List.replicate (n * n) 10) 256 (by simp; omega)]
  dsimp only
  have hr5 : read_block (write_seq M4 256 (List.replicate (n * n) 10)) 256 (n * n) =
      List.replicate (n * n) 10 :=
    read_back M4 (List.replicate (n * n) 10) 256 (n * n) (by simp) (by simp; omega)
  dsimp only [Except.map]
  rw [hr5]

/-- C1 witness. -/
theorem C1_pingpong_all_tens_witness :
    run_inference ⟨2, 8, 520⟩ (List.replicate (2 * 2) 10)
      [⟨two_identity_flat 2, 1, 0⟩, ⟨identity_flat 2, 2, 0⟩] =
      .ok (List.replicate (2 * 2) 10) :=
  C1_pingpong_all_tens 2 520 (by decide) (by decide)

end NPUModel
